import Mathlib

/-!
# Verification of the Cabbage search-engine query pipeline

Shallow embedding of the repository's query-processing pipeline
(`cabbage/main_processor.py`, `cabbage/search_module.py`,
`cabbage/scraper.py`) together with proofs of the specification's
testable properties.

Python strings are modelled as Lean `String`; the Python string
operations used by the source (`str.strip`, `str.join`, truthiness)
are implemented explicitly over the character list `String.data`.
External collaborators (the DuckDuckGo search provider, the Selenium
driver, Trafilatura, the Sumy LSA machinery, the Mistral HTTP API) are
parameters of the embedded functions: each is an oracle describing one
possible behaviour of the collaborator, so theorems quantify over all
collaborator behaviours.
-/

namespace Cabbage

/-! ## Python string primitives -/

/-- One step of Python `str.strip`: drop leading whitespace characters. -/
def dropWs : List Char → List Char
  | [] => []
  | c :: l => if c.isWhitespace then dropWs l else c :: l

/-- Python `str.strip` on a character list: drop leading and trailing
whitespace. -/
def pyStripData (cs : List Char) : List Char :=
  (dropWs (dropWs cs).reverse).reverse

/-- Python `str.strip`. -/
def pyStrip (s : String) : String :=
  String.mk (pyStripData s.data)

/-- Python `sep.join(xs)` on character lists. -/
def joinWith (sep : List Char) : List (List Char) → List Char
  | [] => []
  | [p] => p
  | p :: q :: ps => p ++ sep ++ joinWith sep (q :: ps)

/-- Python `sep.join(xs)`. -/
def pyJoin (sep : String) (xs : List String) : String :=
  String.mk (joinWith sep.data (xs.map String.data))

/-! ## Search Resolver (`search_module.search_urls`)

The DuckDuckGo client is an oracle `ddgs` mapping `(query, max_results)`
to either a raised exception (`Except.error`) or a result list; each
result record is modelled by its `'href'` field, `none` standing for a
record with the key missing (accessing it raises `KeyError`). -/

/-- The list comprehension `[result['href'] for result in results]`:
returns the hrefs, or `none` if some record lacks the key (the
comprehension raises before `urls` is assigned). -/
def collectHrefs : List (Option String) → Option (List String)
  | [] => some []
  | some u :: rest => (collectHrefs rest).map (u :: ·)
  | none :: _ => none

/-- `search_urls` from `search_module.py`: any exception from the
provider is caught and the initial `urls = []` is returned; an empty
result list is returned as-is. -/
def search_urls (ddgs : String → Nat → Except Unit (List (Option String)))
    (query : String) (num_results : Nat) : List String :=
  match ddgs query num_results with
  | Except.error _ => []
  | Except.ok results =>
    if results.isEmpty then []
    else
      match collectHrefs results with
      | some urls => urls
      | none => []

/-! ## Fetch stage (step 2 of `process_query`)

`scraped_data` is a Python dict built by `scraped_data[url] =
scrape_website(url)` over the search results, modelled as an
association list with Python-dict semantics: assignment to a present
key updates the value in place (keeping first-insertion order),
otherwise the pair is appended. -/

/-- Python `k in d` on an association list. -/
def hasKey {α : Type} (d : List (String × α)) (k : String) : Bool :=
  d.any (fun p => p.1 = k)

/-- Python `d[k] = v` on an association list with unique keys. -/
def dictSet {α : Type} (d : List (String × α)) (k : String) (v : α) :
    List (String × α) :=
  if hasKey d k then
    d.map (fun p => if p.1 = k then (k, v) else p)
  else
    d ++ [(k, v)]

/-- The fetch loop of `process_query`: one `scrape_website` call per
list entry, results stored in the `scraped_data` dict. -/
def scraped_data (scrape : String → Option String) (urls : List String) :
    List (String × Option String) :=
  urls.foldl (fun d url => dictSet d url (scrape url)) []

/-! ## Extraction stage (step 3 of `process_query`) -/

/-- One iteration of the extraction loop: `if html_content:` (truthy),
run `trafilatura.extract`; a truthy extraction is stored, a falsy one
(`None` or `""`) is stored as `None`; a failed fetch is carried over as
`None`. -/
def extractEntry (extract : String → Option String) (html : Option String) :
    Option String :=
  match html with
  | some h =>
    if h ≠ "" then
      match extract h with
      | some t => if t ≠ "" then some t else none
      | none => none
    else none
  | none => none

/-- The extraction loop over `scraped_data.items()`; the keys of
`scraped_data` are unique, so the dict `extracted_texts` is a map over
the entries. -/
def extracted_texts (extract : String → Option String)
    (scraped : List (String × Option String)) :
    List (String × Option String) :=
  scraped.map (fun p => (p.1, extractEntry extract p.2))

/-! ## Corpus (step 4 of `process_query`) -/

/-- `"\n\n".join(text for text in processed_content.values() if text and
text.strip())`. -/
def combined_text (processed : List (String × Option String)) : String :=
  pyJoin "\n\n" ((processed.map Prod.snd).filterMap (fun v =>
    match v with
    | some t => if t ≠ "" ∧ pyStrip t ≠ "" then some t else none
    | none => none))

/-- Modelled from the spec: "the double-newline join of all non-empty
extracted texts, in fetch order" — the join of every extracted text
that is not the empty string. -/
def specCorpus (texts : List (Option String)) : String :=
  pyJoin "\n\n" ((texts.filterMap id).filter (fun t => t != ""))

/-- The texts actually contributing to the corpus: extracted, non-empty
and not whitespace-only (Python truthiness of `text` and of
`text.strip()`). -/
def corpusParts (texts : List (Option String)) : List String :=
  (texts.filterMap id).filter (fun t => pyStrip t != "")

/-- The amended corpus: join of the non-empty, non-whitespace-only
extracted texts. -/
def specCorpusStripped (texts : List (Option String)) : String :=
  pyJoin "\n\n" (corpusParts texts)

/-! ## Primary Summarizer (`summarize_text`)

The Sumy machinery (`PlaintextParser`, `Tokenizer`, `Stemmer`,
`LsaSummarizer` with stop words) lives inside the `try:` block and is
an external library; it is modelled as an oracle `lsa` returning
either a raised exception or the list of selected sentence strings,
which the source joins with `" "`. -/

/-- `summarize_text` from `main_processor.py`: guard
`if not text or not isinstance(text, str) or len(text.strip()) == 0`,
then the Sumy call with `except Exception` returning `""`. -/
def summarize_text (lsa : String → Nat → Except Unit (List String))
    (text : String) (sentences_count : Nat) : String :=
  if text = "" ∨ pyStrip text = "" then ""
  else
    match lsa text sentences_count with
    | Except.ok sents => pyJoin " " sents
    | Except.error _ => ""

/-! ## A model of the Sumy LSA machinery (for C9)

Modelled from the spec (§4.4): the machinery behind `summarize_text`
(`PlaintextParser`, `Tokenizer`, `LsaSummarizer`) is an external
library, not part of this repository.  The spec describes it as:
"Deterministic extractive summarization: builds a document
representation, scores sentences by a latent-semantic ranking method
..., selects the top `sentenceCount` sentences, and joins them in
their original relative order ...  Sentence count is a soft cap — if
the corpus has fewer than `sentenceCount` extractable sentences,
returns all of them."  The model below splits the text into sentences
at each `". "` boundary (each sentence keeping its terminal period, as
the NLTK tokenizer does, and blank fragments discarded), scores them
with an arbitrary deterministic score function (the latent-semantic
ranking is a parameter, so the theorems hold for every ranking), keeps
the top `sentenceCount` sentences in original order, and joins them
with `" "` exactly as the source's
`" ".join(str(sentence) for sentence in summary_sentences)` does. -/

/-- Sentence splitting: walk the characters, cutting after a `'.'`
that is immediately followed by `' '` (the period stays with the left
sentence, the space is consumed). `acc` holds the reversed current
sentence. -/
def splitAux : List Char → List Char → List (List Char)
  | [], acc => [acc.reverse]
  | c :: rest, acc =>
    if c = ' ' ∧ acc.head? = some '.' then
      acc.reverse :: splitAux rest []
    else
      splitAux rest (c :: acc)

/-- A sentence fragment counts only if it has a non-whitespace
character (a real tokenizer produces no blank sentences). -/
def nonBlank (p : List Char) : Bool :=
  p.any (fun c => !c.isWhitespace)

/-- The sentences of a text. -/
def sentencesC (cs : List Char) : List (List Char) :=
  (splitAux cs []).filter nonBlank

/-- Minimum score over a sentence list. -/
def minScoreC (score : List Char → Nat) : List (List Char) → Nat
  | [] => 0
  | [p] => score p
  | p :: q :: tl => min (score p) (minScoreC score (q :: tl))

/-- Drop the first lowest-scored sentence (keeping original order of
the rest). -/
def removeFirstMin (score : List Char → Nat) : List (List Char) → List (List Char)
  | [] => []
  | [_] => []
  | p :: q :: tl =>
    if score p ≤ minScoreC score (q :: tl) then q :: tl
    else p :: removeFirstMin score (q :: tl)

/-- Keep the `n` best-scored sentences in original order, by repeatedly
dropping a lowest-scored one; `fuel` bounds the iteration (the initial
list length always suffices). -/
def topSelectGo (score : List Char → Nat) (n : Nat) :
    Nat → List (List Char) → List (List Char)
  | 0, xs => xs
  | fuel + 1, xs =>
    if xs.length ≤ n then xs
    else topSelectGo score n fuel (removeFirstMin score xs)

/-- Top-`n` selection in original order. -/
def topSelect (score : List Char → Nat) (n : Nat) (xs : List (List Char)) :
    List (List Char) :=
  topSelectGo score n xs.length xs

/-- The modelled LSA machinery, pluggable as the `lsa` oracle of
`summarize_text`: never raises, returns the selected sentences in
original order. -/
def lsaModel (score : String → Nat) (text : String) (sentences_count : Nat) :
    Except Unit (List String) :=
  Except.ok ((topSelect (fun p => score (String.mk p)) sentences_count
    (sentencesC text.data)).map String.mk)

/-! ### Predicates used to reason about the sentence model -/

/-- No `". "` cut point inside the character list, where `prev` is the
character immediately preceding the list (if any). -/
def noCutFrom : Option Char → List Char → Prop
  | _, [] => True
  | prev, c :: rest => ¬(prev = some '.' ∧ c = ' ') ∧ noCutFrom (some c) rest

/-- The last character of `l`, falling back to `o` when `l` is empty. -/
def lastFrom : Option Char → List Char → Option Char
  | o, [] => o
  | _, c :: l => lastFrom (some c) l

/-- The sentence ends with a period. -/
def endsDot (p : List Char) : Prop :=
  ∃ q, p = q ++ ['.']

/-- Every sentence except possibly the last ends with a period. -/
def allDotted (ps : List (List Char)) : Prop :=
  ∀ p ∈ ps.dropLast, endsDot p

/-- Number of non-whitespace characters. -/
def cntNW (cs : List Char) : Nat :=
  (cs.filter (fun c => !c.isWhitespace)).length

/-! ## Refinement Summarizer (step 5 of `process_query`) -/

/-- Python values returned by `process_query`: a string, or the empty
dict returned at line 138 when search yields no URLs. -/
inductive PyRet where
  | str : String → PyRet
  | emptyDict : PyRet
  deriving DecidableEq

/-- Outcome of the Mistral API call: `clientResponseError` covers
`aiohttp.ClientResponseError` (raised by `raise_for_status()`),
`otherException` covers every other raised exception (timeout,
transport error, malformed JSON body), and `response choices` is a
parsed JSON body, where `choices = none` models a missing/falsy
`'choices'` key and each element is the choice's
`message.content` (`none` when absent, so that accessing it raises). -/
inductive RemoteOutcome where
  | clientResponseError : RemoteOutcome
  | otherException : RemoteOutcome
  | response : Option (List (Option String)) → RemoteOutcome

/-- The conditions under which the spec says refinement falls back. -/
def refinementFails : RemoteOutcome → Bool
  | RemoteOutcome.clientResponseError => true
  | RemoteOutcome.otherException => true
  | RemoteOutcome.response none => true
  | RemoteOutcome.response (some []) => true
  | RemoteOutcome.response (some (none :: _)) => true
  | RemoteOutcome.response (some (some _ :: _)) => false

/-- Truthiness of `mistral_api_key = os.environ.get("MISTRAL_API_KEY")`:
a missing variable is `None`, and the empty string is falsy. -/
def pyKeyTruthy : Option String → Bool
  | some k => k ≠ ""
  | none => false

/-- The Mistral branch of `process_query`: both `except` handlers fall
back to `first_summary`; `if json_response.get('choices'):` guards the
access `choices[0]['message']['content'].strip()`, whose `KeyError` on
a malformed record is caught by `except Exception`. -/
def mistralStep (first : String) (remote : RemoteOutcome) : String :=
  match remote with
  | RemoteOutcome.clientResponseError => first
  | RemoteOutcome.otherException => first
  | RemoteOutcome.response choices =>
    match choices with
    | some (c :: _) =>
      match c with
      | some content => pyStrip content
      | none => first
    | _ => first

/-! ## Query Orchestrator (`process_query`) -/

/-- `process_query`, instrumented with a ghost flag recording whether
the Mistral API branch was entered.  Mirrors the source control flow:
empty search → `return {}`; empty corpus → `final_summary = ""`;
`if first_summary and mistral_api_key:` → Mistral call;
`elif not first_summary:` → `""`; `else` → fall back to
`first_summary`. -/
def processQueryT (ddgs : String → Nat → Except Unit (List (Option String)))
    (scrape : String → Option String) (extract : String → Option String)
    (lsa : String → Nat → Except Unit (List String)) (remote : RemoteOutcome)
    (apiKey : Option String) (query : String)
    (num_results summary_sentences : Nat) : PyRet × Bool :=
  let urls := search_urls ddgs query num_results
  if urls = [] then (PyRet.emptyDict, false)
  else
    let scraped := scraped_data scrape urls
    let processed := extracted_texts extract scraped
    let combined := combined_text processed
    if combined = "" then (PyRet.str "", false)
    else
      let first := summarize_text lsa combined summary_sentences
      if first ≠ "" ∧ pyKeyTruthy apiKey = true then
        (PyRet.str (mistralStep first remote), true)
      else if first = "" then (PyRet.str "", false)
      else (PyRet.str first, false)

/-- `process_query` proper (the value returned to the caller). -/
def process_query (ddgs : String → Nat → Except Unit (List (Option String)))
    (scrape : String → Option String) (extract : String → Option String)
    (lsa : String → Nat → Except Unit (List String)) (remote : RemoteOutcome)
    (apiKey : Option String) (query : String)
    (num_results summary_sentences : Nat) : PyRet :=
  (processQueryT ddgs scrape extract lsa remote apiKey query
    num_results summary_sentences).1

/-! ## Content Fetcher (`scraper.scrape_website`)

The Selenium calls are oracles: `create` covers
`ChromeDriverManager().install()` and `webdriver.Chrome(...)` (before
which the local `driver` is still `None`), `navigate` is
`driver.get(url)`, `waitBody` the `WebDriverWait` for the `body`
element, `pageSource` the read of `driver.page_source`.  Exceptions are
`TimeoutException`, `WebDriverException`, or anything else; all three
`except` clauses only log.  The mutable locals `html_content` and
`driver` and the event trace become explicit state. -/

/-- Exceptions that the Selenium oracle steps may raise. -/
inductive PyExc where
  | timeoutExc : PyExc
  | webDriverExc : PyExc
  | otherExc : PyExc
  deriving DecidableEq

/-- Resource events: creation and `driver.quit()` of the browser. -/
inductive Ev where
  | acquire : Ev
  | release : Ev
  deriving DecidableEq

/-- The locals of `scrape_website` (`html_content`, `driver`) plus the
trace of resource events. -/
structure ScrapeState where
  html : Option String
  driverLive : Bool
  events : List Ev
  deriving DecidableEq

/-- The `try:` block of `scrape_website`: runs the steps in order,
stopping at the first raised exception; returns the exception (if any)
together with the state at that point. -/
def scrapeTryBody (create navigate waitBody : Except PyExc Unit)
    (pageSource : Except PyExc String) (s0 : ScrapeState) :
    Option PyExc × ScrapeState :=
  match create with
  | Except.error e => (some e, s0)
  | Except.ok _ =>
    let s1 : ScrapeState :=
      { s0 with driverLive := true, events := s0.events ++ [Ev.acquire] }
    match navigate with
    | Except.error e => (some e, s1)
    | Except.ok _ =>
      match waitBody with
      | Except.error e => (some e, s1)
      | Except.ok _ =>
        match pageSource with
        | Except.error e => (some e, s1)
        | Except.ok h => (none, { s1 with html := some h })

/-- The three `except` clauses: `TimeoutException`, `WebDriverException`
and `Exception` are all caught and only logged, so the state is
unchanged and nothing is re-raised. -/
def scrapeHandle (e : PyExc) (s : ScrapeState) : ScrapeState :=
  match e with
  | PyExc.timeoutExc => s
  | PyExc.webDriverExc => s
  | PyExc.otherExc => s

/-- The `finally:` block: `if driver: driver.quit()`. -/
def scrapeFinally (s : ScrapeState) : ScrapeState :=
  if s.driverLive then { s with events := s.events ++ [Ev.release] } else s

/-- `scrape_website` from `scraper.py`: `html_content = None; driver =
None`, the `try`/`except`/`finally`, then `return html_content`.
Returns the result together with the resource-event trace. -/
def scrape_website (create navigate waitBody : Except PyExc Unit)
    (pageSource : Except PyExc String) : Option String × List Ev :=
  let s0 : ScrapeState := { html := none, driverLive := false, events := [] }
  let r := scrapeTryBody create navigate waitBody pageSource s0
  let s2 :=
    match r.1 with
    | some e => scrapeHandle e r.2
    | none => r.2
  let s3 := scrapeFinally s2
  (s3.html, s3.events)

/-! ## Properties -/

/-- All three `except` clauses of `scrape_website` leave the state
unchanged (they only log). -/
theorem scrapeHandle_eq (e : PyExc) (s : ScrapeState) : scrapeHandle e s = s := by
  cases e <;> rfl

/-- C1: the claim says that for a query for which the Search Resolver
returns zero URLs, `process_query` returns the empty string.  The code
instead executes `return {}` (main_processor.py line 138), returning an
empty dict — not a string — contradicting its own docstring
(`Returns: str: ... or an empty string if the process fails`).  This
theorem evaluates the embedded `process_query` at such an input. -/
theorem process_query_empty_search_returns_dict :
    process_query (fun _ _ => Except.error ()) (fun _ => none) (fun _ => none)
      (fun _ _ => Except.error ()) RemoteOutcome.otherException none
      "any query" 5 50 = PyRet.emptyDict ∧
    PyRet.emptyDict ≠ PyRet.str "" := by
  exact ⟨rfl, by decide⟩

/-- C6: `search_urls` never lets a provider exception escape — any
raised error yields the initial `urls = []` — and an empty provider
result is returned as the (valid) empty list. -/
theorem search_urls_absorbs_provider_errors
    (ddgs : String → Nat → Except Unit (List (Option String)))
    (q : String) (n : Nat) :
    (∀ e, ddgs q n = Except.error e → search_urls ddgs q n = []) ∧
    (ddgs q n = Except.ok [] → search_urls ddgs q n = []) := by
  constructor
  · intro e he
    simp [search_urls, he]
  · intro h
    simp [search_urls, h]

/-- Witness for C6 at a concrete always-raising provider. -/
theorem search_urls_absorbs_provider_errors_witness :
    ((fun (_ : String) (_ : Nat) =>
        (Except.error () : Except Unit (List (Option String)))) "q" 3
      = Except.error ()) ∧
    search_urls (fun _ _ => Except.error ()) "q" 3 = [] :=
  ⟨rfl, (search_urls_absorbs_provider_errors (fun _ _ => Except.error ()) "q" 3).1 () rfl⟩

/-- C7: on an empty or whitespace-only corpus, or whenever the Sumy
machinery raises, `summarize_text` returns `""` and raises nothing. -/
theorem summarize_text_safe (lsa : String → Nat → Except Unit (List String))
    (t : String) (n : Nat)
    (h : t = "" ∨ pyStrip t = "" ∨ lsa t n = Except.error ()) :
    summarize_text lsa t n = "" := by
  by_cases hg : t = "" ∨ pyStrip t = ""
  · simp [summarize_text, hg]
  · rcases h with h | h | h
    · exact absurd (Or.inl h) hg
    · exact absurd (Or.inr h) hg
    · simp [summarize_text, hg, h]

/-- Witness for C7: a whitespace-only corpus with a failing machinery. -/
theorem summarize_text_safe_witness :
    ((" " : String) = "" ∨ pyStrip " " = "" ∨
      (fun (_ : String) (_ : Nat) =>
        (Except.error () : Except Unit (List String))) " " 3 = Except.error ()) ∧
    summarize_text (fun _ _ => Except.error ()) " " 3 = "" :=
  ⟨Or.inr (Or.inl (by decide)),
    summarize_text_safe (fun _ _ => Except.error ()) " " 3 (Or.inr (Or.inl (by decide)))⟩

/-- C8: on every path through `scrape_website` — success, timeout,
driver error, or any other exception at any step — the browser driver
is released exactly as often as it is acquired (the `finally:` block
runs `driver.quit()` whenever `driver` was set), and every failing step
results in the return value `None` rather than a raised exception. -/
theorem scrape_website_releases_and_reports
    (create navigate waitBody : Except PyExc Unit)
    (pageSource : Except PyExc String) :
    ((scrape_website create navigate waitBody pageSource).2.count Ev.acquire
      = (scrape_website create navigate waitBody pageSource).2.count Ev.release) ∧
    (∀ e, create = Except.error e →
      (scrape_website create navigate waitBody pageSource).1 = none) ∧
    (∀ e, navigate = Except.error e →
      (scrape_website create navigate waitBody pageSource).1 = none) ∧
    (∀ e, waitBody = Except.error e →
      (scrape_website create navigate waitBody pageSource).1 = none) ∧
    (∀ e, pageSource = Except.error e →
      (scrape_website create navigate waitBody pageSource).1 = none) := by
  rcases create with e₁ | u₁ <;> rcases navigate with e₂ | u₂ <;>
    rcases waitBody with e₃ | u₃ <;> rcases pageSource with e₄ | h₄ <;>
    simp [scrape_website, scrapeTryBody, scrapeFinally, scrapeHandle_eq]

/-- Witness for C8: a timeout while reading the page source yields
`None`. -/
theorem scrape_website_releases_and_reports_witness :
    ((Except.error PyExc.timeoutExc : Except PyExc String)
      = Except.error PyExc.timeoutExc) ∧
    (scrape_website (Except.ok ()) (Except.ok ()) (Except.ok ())
      (Except.error PyExc.timeoutExc)).1 = none :=
  ⟨rfl, (scrape_website_releases_and_reports (Except.ok ()) (Except.ok ())
    (Except.ok ()) (Except.error PyExc.timeoutExc)).2.2.2.2 PyExc.timeoutExc rfl⟩

/-- C2: whenever refinement is skipped or fails — absent/empty
credential, `aiohttp.ClientResponseError`, any other exception
(timeout, transport error, malformed body), a missing/empty `choices`
list, or a first choice without usable content — `process_query`
returns exactly the primary summary, and no error escapes. -/
theorem process_query_refinement_fallback
    (ddgs : String → Nat → Except Unit (List (Option String)))
    (scrape extract : String → Option String)
    (lsa : String → Nat → Except Unit (List String)) (remote : RemoteOutcome)
    (apiKey : Option String) (q : String) (n m : Nat)
    (hurls : search_urls ddgs q n ≠ [])
    (hfail : pyKeyTruthy apiKey = false ∨ refinementFails remote = true) :
    process_query ddgs scrape extract lsa remote apiKey q n m
      = PyRet.str (summarize_text lsa
          (combined_text (extracted_texts extract
            (scraped_data scrape (search_urls ddgs q n)))) m) := by
  simp only [process_query, processQueryT]
  split
  · exact absurd (by assumption) hurls
  · split
    · next hC =>
      rw [hC]
      simp [summarize_text]
    · next =>
      split
      · next hFK =>
        obtain ⟨hF, hK⟩ := hFK
        rcases hfail with hk0 | hr
        · rw [hk0] at hK
          exact absurd hK (by simp)
        · rcases remote with _ | _ | choices
          · rfl
          · rfl
          · rcases choices with _ | ⟨_ | ⟨c, cs⟩⟩
            · rfl
            · rfl
            · rcases c with _ | s
              · rfl
              · simp [refinementFails] at hr
      · split
        · next hF0 =>
          rw [hF0]
        · rfl

/-- Witness for C2: a one-URL pipeline with no credential falls back
to the primary summary. -/
theorem process_query_refinement_fallback_witness :
    search_urls (fun _ _ => Except.ok [some "u"]) "q" 1 ≠ [] ∧
    process_query (fun _ _ => Except.ok [some "u"]) (fun _ => some "<p>t</p>")
      (fun _ => some "some text.") (fun _ _ => Except.ok ["some text."])
      RemoteOutcome.otherException none "q" 1 3
      = PyRet.str (summarize_text (fun _ _ => Except.ok ["some text."])
          (combined_text (extracted_texts (fun _ => some "some text.")
            (scraped_data (fun _ => some "<p>t</p>")
              (search_urls (fun _ _ => Except.ok [some "u"]) "q" 1)))) 3) :=
  ⟨by decide,
    process_query_refinement_fallback (fun _ _ => Except.ok [some "u"])
      (fun _ => some "<p>t</p>") (fun _ => some "some text.")
      (fun _ _ => Except.ok ["some text."]) RemoteOutcome.otherException
      none "q" 1 3 (by decide) (Or.inl rfl)⟩

/-- C5: when the corpus is empty (but search returned URLs), the final
summary is the empty string, the primary summary of the (empty) corpus
is the empty string, and the Mistral branch is never entered (the ghost
flag of `processQueryT` stays `false`). -/
theorem process_query_empty_corpus_short_circuit
    (ddgs : String → Nat → Except Unit (List (Option String)))
    (scrape extract : String → Option String)
    (lsa : String → Nat → Except Unit (List String)) (remote : RemoteOutcome)
    (apiKey : Option String) (q : String) (n m : Nat)
    (hurls : search_urls ddgs q n ≠ [])
    (hcorp : combined_text (extracted_texts extract
      (scraped_data scrape (search_urls ddgs q n))) = "") :
    processQueryT ddgs scrape extract lsa remote apiKey q n m
      = (PyRet.str "", false) ∧
    summarize_text lsa (combined_text (extracted_texts extract
      (scraped_data scrape (search_urls ddgs q n)))) m = "" := by
  constructor
  · simp only [processQueryT]
    simp [hurls, hcorp]
  · rw [hcorp]
    simp [summarize_text]

/-- Witness for C5: all extractions fail, so the corpus is empty. -/
theorem process_query_empty_corpus_short_circuit_witness :
    search_urls (fun _ _ => Except.ok [some "u"]) "q" 1 ≠ [] ∧
    combined_text (extracted_texts (fun _ => none)
      (scraped_data (fun _ => some "<p>t</p>")
        (search_urls (fun _ _ => Except.ok [some "u"]) "q" 1))) = "" ∧
    processQueryT (fun _ _ => Except.ok [some "u"]) (fun _ => some "<p>t</p>")
      (fun _ => none) (fun _ _ => Except.error ()) RemoteOutcome.otherException
      (some "key") "q" 1 3 = (PyRet.str "", false) :=
  ⟨by decide, by decide,
    (process_query_empty_corpus_short_circuit (fun _ _ => Except.ok [some "u"])
      (fun _ => some "<p>t</p>") (fun _ => none) (fun _ _ => Except.error ())
      RemoteOutcome.otherException (some "key") "q" 1 3
      (by decide) (by decide)).1⟩

/-! ### Counting fetch and extraction outcomes (C3) -/

theorem length_dictSet_le {α : Type} (d : List (String × α)) (k : String) (v : α) :
    (dictSet d k v).length ≤ d.length + 1 := by
  unfold dictSet
  split
  · simp
  · simp

theorem dictSet_of_not_hasKey {α : Type} (d : List (String × α)) (k : String)
    (v : α) (h : hasKey d k = false) : dictSet d k v = d ++ [(k, v)] := by
  unfold dictSet
  rw [h]
  simp

theorem hasKey_append_single {α : Type} (d : List (String × α)) (k k' : String)
    (v : α) : hasKey (d ++ [(k, v)]) k' = (hasKey d k' || decide (k = k')) := by
  simp [hasKey]

/-- The fetch loop never stores more entries than `d.length` plus the
number of remaining URLs. -/
theorem foldl_dictSet_length_le (scrape : String → Option String) :
    ∀ (urls : List String) (d : List (String × Option String)),
      (urls.foldl (fun d url => dictSet d url (scrape url)) d).length
        ≤ d.length + urls.length := by
  intro urls
  induction urls with
  | nil => intro d; simp
  | cons u rest ih =>
    intro d
    calc (List.foldl (fun d url => dictSet d url (scrape url)) (dictSet d u (scrape u)) rest).length
        ≤ (dictSet d u (scrape u)).length + rest.length := ih _
      _ ≤ (d.length + 1) + rest.length := by
          exact Nat.add_le_add_right (length_dictSet_le d u (scrape u)) _
      _ = d.length + (u :: rest).length := by simp [Nat.add_assoc, Nat.add_comm 1]

/-- With pairwise-distinct fresh URLs, the fetch loop stores exactly one
entry per URL. -/
theorem foldl_dictSet_length_nodup (scrape : String → Option String) :
    ∀ (urls : List String) (d : List (String × Option String)),
      urls.Nodup → (∀ u ∈ urls, hasKey d u = false) →
      (urls.foldl (fun d url => dictSet d url (scrape url)) d).length
        = d.length + urls.length := by
  intro urls
  induction urls with
  | nil => intro d _ _; simp
  | cons u rest ih =>
    intro d hnd hfresh
    have hu : hasKey d u = false := hfresh u (by simp)
    rw [List.foldl_cons, dictSet_of_not_hasKey d u (scrape u) hu]
    have hrest : ∀ u' ∈ rest, hasKey (d ++ [(u, scrape u)]) u' = false := by
      intro u' hu'
      rw [hasKey_append_single]
      have h1 : hasKey d u' = false := hfresh u' (by simp [hu'])
      have h2 : u ≠ u' := by
        intro hcontr
        exact (List.nodup_cons.mp hnd).1 (hcontr ▸ hu')
      simp [h1, h2]
    rw [ih (d ++ [(u, scrape u)]) (List.nodup_cons.mp hnd).2 hrest]
    simp [Nat.add_assoc, Nat.add_comm 1]

/-- C3 (counterexample to the claim as stated): with a duplicated URL
the `scraped_data` dict collapses the two fetches into a single entry,
so the number of FetchOutcomes is 1, not k = 2. -/
theorem fetch_outcomes_collapse_duplicates :
    (scraped_data (fun _ => some "h") ["a", "a"]).length
      ≠ (["a", "a"] : List String).length := by
  decide

/-- C3 (amended): for a search result list of size k, the fetch stage
stores one FetchOutcome per distinct URL — at most k, and exactly k
when the list has no duplicates — and the number of ExtractionOutcomes
equals the number of FetchOutcomes, hence is at most k. -/
theorem fetch_extraction_counts (urls : List String)
    (scrape extract : String → Option String) :
    (scraped_data scrape urls).length ≤ urls.length ∧
    (extracted_texts extract (scraped_data scrape urls)).length
      = (scraped_data scrape urls).length ∧
    (urls.Nodup → (scraped_data scrape urls).length = urls.length) := by
  refine ⟨?_, ?_, ?_⟩
  · have := foldl_dictSet_length_le scrape urls []
    simpa [scraped_data] using this
  · simp [extracted_texts]
  · intro hnd
    have := foldl_dictSet_length_nodup scrape urls [] hnd (by intro u _; rfl)
    simpa [scraped_data] using this

/-- Witness for C3 at a concrete duplicate-free URL list. -/
theorem fetch_extraction_counts_witness :
    (["a", "b"] : List String).Nodup ∧
    (scraped_data (fun _ => some "h") ["a", "b"]).length
      = (["a", "b"] : List String).length :=
  ⟨by decide,
    (fetch_extraction_counts ["a", "b"] (fun _ => some "h") (fun _ => none)).2.2
      (by decide)⟩

/-! ### The corpus (C4, C10) -/

theorem pyStrip_empty : pyStrip "" = "" := rfl

/-- The generator filter `if text and text.strip()` keeps exactly the
texts whose strip is non-empty. -/
theorem filter_texts_eq (texts : List (Option String)) :
    texts.filterMap (fun v =>
      match v with
      | some t => if t ≠ "" ∧ pyStrip t ≠ "" then some t else none
      | none => none)
    = (texts.filterMap id).filter (fun t => pyStrip t != "") := by
  induction texts with
  | nil => rfl
  | cons v rest ih =>
    cases v with
    | none => simpa using ih
    | some t =>
      by_cases hs : pyStrip t = ""
      · have hcond : ¬ (t ≠ "" ∧ pyStrip t ≠ "") := by
          intro hc
          exact hc.2 hs
        simp [hcond, hs, ih]
      · have ht : t ≠ "" := by
          intro h0
          rw [h0] at hs
          exact hs pyStrip_empty
        simp [ht, hs, ih]

/-- C4 (counterexample to the claim as stated): a whitespace-only
extracted text is non-empty, yet the corpus omits it, so the corpus
differs from the join of all non-empty extracted texts. -/
theorem corpus_differs_from_nonempty_join :
    combined_text (extracted_texts (fun _ => some " ")
        (scraped_data (fun _ => some "<p>") ["u"]))
      ≠ specCorpus ((extracted_texts (fun _ => some " ")
        (scraped_data (fun _ => some "<p>") ["u"])).map Prod.snd) := by
  decide

/-- C4 (amended): for every run of the pipeline, the corpus passed to
the primary summarizer equals the double-newline join of all extracted
texts that are non-empty and not whitespace-only, in URL-processing
order, and no contributing text is empty or null. -/
theorem corpus_eq_join_of_stripped_texts (urls : List String)
    (scrape extract : String → Option String) :
    combined_text (extracted_texts extract (scraped_data scrape urls))
      = specCorpusStripped ((extracted_texts extract
          (scraped_data scrape urls)).map Prod.snd) ∧
    ((corpusParts ((extracted_texts extract
        (scraped_data scrape urls)).map Prod.snd)).all
      (fun t => t != "")) = true := by
  constructor
  · unfold combined_text specCorpusStripped corpusParts
    rw [filter_texts_eq]
  · rw [List.all_eq_true]
    intro t ht
    have hs := (List.mem_filter.mp ht).2
    have hne : t ≠ "" := by
      intro h0
      rw [h0] at hs
      simp [pyStrip_empty] at hs
    simpa using hne

/-- C10: an extraction outcome that is non-empty but whitespace-only
contributes neither text nor a separator to the corpus: the corpus
equals the one computed without that entry. -/
theorem whitespace_only_extraction_contributes_nothing
    (pre post : List (String × Option String)) (u t : String)
    (_ht : t ≠ "") (hws : pyStrip t = "") :
    combined_text (pre ++ (u, some t) :: post) = combined_text (pre ++ post) := by
  unfold combined_text
  have hcond : ¬ (t ≠ "" ∧ pyStrip t ≠ "") := by
    intro hc
    exact hc.2 hws
  simp [List.map_append, List.filterMap_append, hcond]

/-- Witness for C10: the text `" "` is non-empty yet whitespace-only,
and dropping it leaves the corpus unchanged. -/
theorem whitespace_only_extraction_contributes_nothing_witness :
    (" " : String) ≠ "" ∧ pyStrip " " = "" ∧
    combined_text [("a", some "x."), ("u", some " ")]
      = combined_text [("a", some "x.")] :=
  ⟨by decide, by decide,
    whitespace_only_extraction_contributes_nothing [("a", some "x.")] [] "u" " "
      (by decide) (by decide)⟩

/-! ### Facts about `pyStrip` and string coercions -/

theorem mk_data (l : List Char) : (String.mk l).data = l := rfl

theorem mk_eq_empty_iff (l : List Char) : String.mk l = "" ↔ l = [] := by
  constructor
  · intro h
    have := congrArg String.data h
    simpa using this
  · intro h
    rw [h]

theorem dropWs_eq_nil_iff (l : List Char) :
    dropWs l = [] ↔ ∀ c ∈ l, c.isWhitespace = true := by
  induction l with
  | nil => simp [dropWs]
  | cons c l ih =>
    by_cases h : c.isWhitespace = true
    · simp [dropWs, h, ih]
    · simp [dropWs, h]

theorem exists_nonWs_dropWs (l : List Char)
    (h : ∃ c ∈ l, c.isWhitespace = false) :
    ∃ c ∈ dropWs l, c.isWhitespace = false := by
  induction l with
  | nil => exact absurd h (by simp)
  | cons c l ih =>
    obtain ⟨x, hx, hxw⟩ := h
    by_cases hc : c.isWhitespace = true
    · have hxl : x ∈ l := by
        rcases List.mem_cons.mp hx with h1 | h1
        · rw [h1] at hxw
          rw [hc] at hxw
          cases hxw
        · exact h1
      rw [show dropWs (c :: l) = dropWs l from by simp [dropWs, hc]]
      exact ih ⟨x, hxl, hxw⟩
    · refine ⟨c, ?_, by simpa using hc⟩
      simp [dropWs, hc]

theorem pyStripData_eq_nil_of_all_ws (cs : List Char)
    (h : ∀ c ∈ cs, c.isWhitespace = true) : pyStripData cs = [] := by
  unfold pyStripData
  rw [(dropWs_eq_nil_iff cs).mpr h]
  rfl

theorem pyStripData_ne_nil_of_exists (cs : List Char)
    (h : ∃ c ∈ cs, c.isWhitespace = false) : pyStripData cs ≠ [] := by
  unfold pyStripData
  have h1 := exists_nonWs_dropWs cs h
  have h2 : ∃ c ∈ (dropWs cs).reverse, c.isWhitespace = false := by
    obtain ⟨c, hc, hw⟩ := h1
    exact ⟨c, List.mem_reverse.mpr hc, hw⟩
  have h3 := exists_nonWs_dropWs _ h2
  obtain ⟨c, hc, _⟩ := h3
  exact List.ne_nil_of_mem (List.mem_reverse.mpr hc)

/-- `text.strip()` is non-empty exactly when the text has a
non-whitespace character. -/
theorem pyStrip_ne_empty_iff (s : String) :
    pyStrip s ≠ "" ↔ ∃ c ∈ s.data, c.isWhitespace = false := by
  constructor
  · intro h
    by_contra hall
    push_neg at hall
    have hall' : ∀ c ∈ s.data, c.isWhitespace = true := by
      intro c hc
      have := hall c hc
      simpa using this
    exact h ((mk_eq_empty_iff _).mpr (pyStripData_eq_nil_of_all_ws _ hall'))
  · intro h hcontr
    exact pyStripData_ne_nil_of_exists _ h ((mk_eq_empty_iff _).mp hcontr)

/-! ### Structure of the sentence splitter -/

theorem splitAux_ne_nil : ∀ (cs acc : List Char), splitAux cs acc ≠ [] := by
  intro cs
  induction cs with
  | nil => intro acc; simp [splitAux]
  | cons c rest ih =>
    intro acc
    by_cases h : c = ' ' ∧ acc.head? = some '.'
    · simp [splitAux, h]
    · simpa [splitAux, h] using ih (c :: acc)

/-- Walking a cut-free fragment only accumulates its characters. -/
theorem splitAux_walk : ∀ (p rest acc : List Char), noCutFrom acc.head? p →
    splitAux (p ++ rest) acc = splitAux rest (p.reverse ++ acc) := by
  intro p
  induction p with
  | nil => intro rest acc _; simp
  | cons c p' ih =>
    intro rest acc h
    obtain ⟨hgp, hrest⟩ := h
    have hcond : ¬(c = ' ' ∧ acc.head? = some '.') := by
      intro hc
      exact hgp ⟨hc.2, hc.1⟩
    show splitAux (c :: (p' ++ rest)) acc = _
    rw [show splitAux (c :: (p' ++ rest)) acc = splitAux (p' ++ rest) (c :: acc) from by
      simp [splitAux, hcond]]
    rw [ih rest (c :: acc) hrest]
    simp

/-- A space after a period emits the accumulated sentence. -/
theorem splitAux_cut (rest acc : List Char) (h : acc.head? = some '.') :
    splitAux (' ' :: rest) acc = acc.reverse :: splitAux rest [] := by
  simp [splitAux, h]

theorem lastFrom_append_single : ∀ (l : List Char) (o : Option Char) (c : Char),
    lastFrom o (l ++ [c]) = some c := by
  intro l
  induction l with
  | nil => intro o c; rfl
  | cons x l ih => intro o c; exact ih (some x) c

theorem lastFrom_reverse (acc : List Char) :
    lastFrom none acc.reverse = acc.head? := by
  cases acc with
  | nil => rfl
  | cons a acc' =>
    rw [List.reverse_cons, lastFrom_append_single]
    rfl

theorem noCutFrom_snoc : ∀ (l : List Char) (o : Option Char) (c : Char),
    noCutFrom o l → ¬(lastFrom o l = some '.' ∧ c = ' ') →
    noCutFrom o (l ++ [c]) := by
  intro l
  induction l with
  | nil => intro o c _ hl; exact ⟨hl, trivial⟩
  | cons x l ih =>
    intro o c h hl
    obtain ⟨h1, h2⟩ := h
    exact ⟨h1, ih (some x) c h2 hl⟩

/-- Every emitted sentence is cut-free. -/
theorem splitAux_noCut : ∀ (cs acc : List Char), noCutFrom none acc.reverse →
    ∀ p ∈ splitAux cs acc, noCutFrom none p := by
  intro cs
  induction cs with
  | nil =>
    intro acc hacc p hp
    simp [splitAux] at hp
    rw [hp]
    exact hacc
  | cons c rest ih =>
    intro acc hacc p hp
    by_cases h : c = ' ' ∧ acc.head? = some '.'
    · rw [show splitAux (c :: rest) acc = acc.reverse :: splitAux rest [] from by
        simp [splitAux, h]] at hp
      rcases List.mem_cons.mp hp with h1 | h1
      · rw [h1]; exact hacc
      · exact ih [] trivial p h1
    · rw [show splitAux (c :: rest) acc = splitAux rest (c :: acc) from by
        simp [splitAux, h]] at hp
      refine ih (c :: acc) ?_ p hp
      rw [List.reverse_cons]
      refine noCutFrom_snoc _ none c hacc ?_
      rw [lastFrom_reverse]
      intro hcontr
      exact h ⟨hcontr.2, hcontr.1⟩

theorem allDotted_singleton (p : List Char) : allDotted [p] := by
  simp [allDotted]

theorem allDotted_cons (p q : List Char) (tl : List (List Char)) :
    allDotted (p :: q :: tl) ↔ endsDot p ∧ allDotted (q :: tl) := by
  unfold allDotted
  rw [show (p :: q :: tl).dropLast = p :: (q :: tl).dropLast from rfl]
  simp

/-- Every emitted sentence except possibly the last ends with a
period. -/
theorem splitAux_allDotted : ∀ (cs acc : List Char), allDotted (splitAux cs acc) := by
  intro cs
  induction cs with
  | nil =>
    intro acc
    rw [show splitAux [] acc = [acc.reverse] from rfl]
    exact allDotted_singleton _
  | cons c rest ih =>
    intro acc
    by_cases h : c = ' ' ∧ acc.head? = some '.'
    · rw [show splitAux (c :: rest) acc = acc.reverse :: splitAux rest [] from by
        simp [splitAux, h]]
      obtain ⟨y, tl, htl⟩ := List.exists_cons_of_ne_nil (splitAux_ne_nil rest [])
      rw [htl, allDotted_cons]
      constructor
      · obtain ⟨a, acc', rfl⟩ : ∃ a acc', acc = a :: acc' := by
          cases acc with
          | nil => simp at h
          | cons a acc' => exact ⟨a, acc', rfl⟩
        have ha : a = '.' := by simpa using h.2
        rw [List.reverse_cons, ha]
        exact ⟨acc'.reverse, rfl⟩
      · rw [← htl]
        exact ih []
    · rw [show splitAux (c :: rest) acc = splitAux rest (c :: acc) from by
        simp [splitAux, h]]
      exact ih (c :: acc)

/-- Round trip: splitting the space-join of cut-free, dotted sentences
recovers exactly those sentences. -/
theorem split_joinWith : ∀ (ps : List (List Char)), ps ≠ [] →
    (∀ p ∈ ps, noCutFrom none p) → allDotted ps →
    splitAux (joinWith [' '] ps) [] = ps := by
  intro ps
  induction ps with
  | nil => intro h; exact absurd rfl h
  | cons p tl ih =>
    intro _ hnc hd
    cases tl with
    | nil =>
      rw [show joinWith [' '] [p] = p from rfl]
      have hw := splitAux_walk p [] [] (hnc p (by simp))
      rw [List.append_nil] at hw
      rw [hw]
      simp [splitAux]
    | cons q tl' =>
      rw [show joinWith [' '] (p :: q :: tl')
          = p ++ ([' '] ++ joinWith [' '] (q :: tl')) from by
        rw [show joinWith [' '] (p :: q :: tl')
            = p ++ [' '] ++ joinWith [' '] (q :: tl') from rfl]
        simp [List.append_assoc]]
      rw [splitAux_walk p ([' '] ++ joinWith [' '] (q :: tl')) [] (hnc p (by simp))]
      rw [List.append_nil]
      have hdp : endsDot p := ((allDotted_cons p q tl').mp hd).1
      obtain ⟨p0, hp0⟩ := hdp
      have hhead : p.reverse.head? = some '.' := by
        rw [hp0, List.reverse_append]
        rfl
      rw [show ([' '] ++ joinWith [' '] (q :: tl'))
          = ' ' :: joinWith [' '] (q :: tl') from rfl]
      rw [splitAux_cut _ _ hhead, List.reverse_reverse]
      congr 1
      exact ih (by simp) (fun r hr => hnc r (by simp [hr]))
        ((allDotted_cons p q tl').mp hd).2

/-! ### Selection lemmas -/

theorem removeFirstMin_shape (score : List Char → Nat) :
    ∀ (xs : List (List Char)), xs ≠ [] →
    ∃ l1 x l2, xs = l1 ++ x :: l2 ∧ removeFirstMin score xs = l1 ++ l2 := by
  intro xs
  induction xs with
  | nil => intro h; exact absurd rfl h
  | cons p tl ih =>
    intro _
    cases tl with
    | nil => exact ⟨[], p, [], rfl, rfl⟩
    | cons q tl' =>
      by_cases h : score p ≤ minScoreC score (q :: tl')
      · exact ⟨[], p, q :: tl', rfl, by simp [removeFirstMin, h]⟩
      · obtain ⟨l1, x, l2, heq, hrm⟩ := ih (by simp)
        refine ⟨p :: l1, x, l2, by rw [heq, List.cons_append], ?_⟩
        rw [show removeFirstMin score (p :: q :: tl')
            = p :: removeFirstMin score (q :: tl') from by simp [removeFirstMin, h]]
        rw [hrm, List.cons_append]

theorem removeFirstMin_length (score : List Char → Nat)
    (xs : List (List Char)) (h : xs ≠ []) :
    (removeFirstMin score xs).length + 1 = xs.length := by
  obtain ⟨l1, x, l2, heq, hrm⟩ := removeFirstMin_shape score xs h
  rw [hrm, heq]
  simp only [List.length_append, List.length_cons]
  omega

theorem allDotted_remove : ∀ (l1 : List (List Char)) (x : List Char)
    (l2 : List (List Char)), allDotted (l1 ++ x :: l2) → allDotted (l1 ++ l2) := by
  intro l1
  induction l1 with
  | nil =>
    intro x l2 h
    cases l2 with
    | nil => simp [allDotted]
    | cons y tl => exact ((allDotted_cons x y tl).mp h).2
  | cons a l1' ih =>
    intro x l2 h
    have h' : allDotted (a :: (l1' ++ x :: l2)) := h
    obtain ⟨z, rest, hzr⟩ :=
      List.exists_cons_of_ne_nil (show l1' ++ x :: l2 ≠ [] by simp)
    rw [hzr] at h'
    have hda : endsDot a := ((allDotted_cons a z rest).mp h').1
    have hdrest : allDotted (l1' ++ x :: l2) := by
      rw [hzr]
      exact ((allDotted_cons a z rest).mp h').2
    have htail := ih x l2 hdrest
    show allDotted (a :: (l1' ++ l2))
    cases hc : l1' ++ l2 with
    | nil => exact allDotted_singleton a
    | cons w ws =>
      rw [hc] at htail
      exact (allDotted_cons a w ws).mpr ⟨hda, htail⟩

theorem topSelectGo_of_le (score : List Char → Nat) (n : Nat) :
    ∀ (fuel : Nat) (xs : List (List Char)), xs.length ≤ n →
    topSelectGo score n fuel xs = xs := by
  intro fuel
  cases fuel with
  | zero => intro xs _; rfl
  | succ f => intro xs h; simp [topSelectGo, h]

theorem topSelectGo_length (score : List Char → Nat) (n : Nat) :
    ∀ (fuel : Nat) (xs : List (List Char)), xs.length ≤ fuel →
    (topSelectGo score n fuel xs).length ≤ n := by
  intro fuel
  induction fuel with
  | zero =>
    intro xs h
    have hx : xs = [] := List.eq_nil_of_length_eq_zero (Nat.le_zero.mp h)
    rw [hx]
    simp [topSelectGo]
  | succ f ih =>
    intro xs h
    by_cases hn : xs.length ≤ n
    · simp [topSelectGo, hn]
    · have hne : xs ≠ [] := by
        intro hc
        rw [hc] at hn
        exact hn (by simp)
      have hlen := removeFirstMin_length score xs hne
      have hf : (removeFirstMin score xs).length ≤ f := by omega
      simpa [topSelectGo, hn] using ih _ hf

theorem topSelectGo_pres (score : List Char → Nat) (n : Nat)
    (P : List (List Char) → Prop)
    (hstep : ∀ ys, ys ≠ [] → P ys → P (removeFirstMin score ys)) :
    ∀ (fuel : Nat) (xs : List (List Char)), P xs →
    P (topSelectGo score n fuel xs) := by
  intro fuel
  induction fuel with
  | zero => intro xs h; exact h
  | succ f ih =>
    intro xs h
    by_cases hn : xs.length ≤ n
    · simpa [topSelectGo, hn] using h
    · have hne : xs ≠ [] := by
        intro hc
        rw [hc] at hn
        exact hn (by simp)
      simpa [topSelectGo, hn] using ih _ (hstep xs hne h)

/-! ### Counting non-whitespace characters across the split -/

theorem cntNW_append (l1 l2 : List Char) :
    cntNW (l1 ++ l2) = cntNW l1 + cntNW l2 := by
  simp [cntNW, List.filter_append]

theorem cntNW_reverse (l : List Char) : cntNW l.reverse = cntNW l := by
  induction l with
  | nil => rfl
  | cons c l ih =>
    rw [List.reverse_cons, cntNW_append, ih,
      show (c :: l) = [c] ++ l from rfl, cntNW_append]
    omega

theorem splitAux_cnt : ∀ (cs acc : List Char),
    ((splitAux cs acc).map cntNW).sum = cntNW acc + cntNW cs := by
  intro cs
  induction cs with
  | nil =>
    intro acc
    rw [show splitAux [] acc = [acc.reverse] from rfl]
    simp [cntNW_reverse, show cntNW ([] : List Char) = 0 from rfl]
  | cons c rest ih =>
    intro acc
    by_cases h : c = ' ' ∧ acc.head? = some '.'
    · rw [show splitAux (c :: rest) acc = acc.reverse :: splitAux rest [] from by
        simp [splitAux, h]]
      rw [List.map_cons, List.sum_cons, ih [], cntNW_reverse, h.1]
      have h1 : cntNW (' ' :: rest) = cntNW [' '] + cntNW rest := cntNW_append [' '] rest
      have h2 : cntNW ([' '] : List Char) = 0 := by decide
      have h3 : cntNW ([] : List Char) = 0 := rfl
      omega
    · rw [show splitAux (c :: rest) acc = splitAux rest (c :: acc) from by
        simp [splitAux, h]]
      rw [ih (c :: acc)]
      have h1 : cntNW (c :: acc) = cntNW [c] + cntNW acc := cntNW_append [c] acc
      have h2 : cntNW (c :: rest) = cntNW [c] + cntNW rest := cntNW_append [c] rest
      omega

theorem cntNW_pos_of_exists (cs : List Char)
    (h : ∃ c ∈ cs, c.isWhitespace = false) : 0 < cntNW cs := by
  obtain ⟨c, hc, hw⟩ := h
  have hmem : c ∈ cs.filter (fun c => !c.isWhitespace) :=
    List.mem_filter.mpr ⟨hc, by simp [hw]⟩
  unfold cntNW
  exact List.length_pos.mpr (List.ne_nil_of_mem hmem)

theorem exists_nonWs_of_cntNW_pos (cs : List Char) (h : 0 < cntNW cs) :
    ∃ c ∈ cs, c.isWhitespace = false := by
  unfold cntNW at h
  obtain ⟨c, hc⟩ := List.exists_mem_of_length_pos h
  have hm := List.mem_filter.mp hc
  exact ⟨c, hm.1, by simpa using hm.2⟩

/-- A text with a non-whitespace character yields at least one
sentence. -/
theorem sentencesC_ne_nil (cs : List Char)
    (h : ∃ c ∈ cs, c.isWhitespace = false) : sentencesC cs ≠ [] := by
  have hsum : ((splitAux cs []).map cntNW).sum = cntNW cs := by
    have hs := splitAux_cnt cs []
    simpa [show cntNW ([] : List Char) = 0 from rfl] using hs
  have hpos : 0 < cntNW cs := cntNW_pos_of_exists cs h
  have hex : ∃ p ∈ splitAux cs [], 0 < cntNW p := by
    by_contra hall
    push_neg at hall
    have hz : ((splitAux cs []).map cntNW).sum = 0 := by
      apply List.sum_eq_zero
      intro x hx
      obtain ⟨p, hp, hpx⟩ := List.mem_map.mp hx
      have := hall p hp
      omega
    omega
  obtain ⟨p, hp, hppos⟩ := hex
  have hnb : nonBlank p = true := by
    obtain ⟨c, hc, hw⟩ := exists_nonWs_of_cntNW_pos p hppos
    unfold nonBlank
    rw [List.any_eq_true]
    exact ⟨c, hc, by simp [hw]⟩
  exact List.ne_nil_of_mem (List.mem_filter.mpr ⟨hp, hnb⟩)

/-! ### Idempotence of the primary summarizer (C9) -/

theorem map_data_map_mk (l : List (List Char)) :
    (l.map String.mk).map String.data = l := by
  induction l with
  | nil => rfl
  | cons p tl ih => simp [ih, mk_data]

theorem pyJoin_space_data (psel : List (List Char)) :
    (pyJoin " " (psel.map String.mk)).data = joinWith [' '] psel := by
  unfold pyJoin
  rw [mk_data, map_data_map_mk]

theorem mem_joinWith_head (sep p : List Char) (tl : List (List Char))
    (c : Char) (hc : c ∈ p) : c ∈ joinWith sep (p :: tl) := by
  cases tl with
  | nil => exact hc
  | cons q tl' =>
    rw [show joinWith sep (p :: q :: tl')
        = p ++ sep ++ joinWith sep (q :: tl') from rfl]
    exact List.mem_append.mpr (Or.inl (List.mem_append.mpr (Or.inl hc)))

theorem endsDot_nonBlank (p : List Char) (h : endsDot p) : nonBlank p = true := by
  obtain ⟨q, rfl⟩ := h
  unfold nonBlank
  rw [List.any_eq_true]
  exact ⟨'.', List.mem_append.mpr (Or.inr (by simp)), by decide⟩

theorem allDotted_filter : ∀ (ps : List (List Char)), allDotted ps →
    allDotted (ps.filter nonBlank) := by
  intro ps
  induction ps with
  | nil => intro _; simp [allDotted]
  | cons p tl ih =>
    intro h
    cases tl with
    | nil =>
      by_cases hb : nonBlank p = true
      · simp [List.filter_cons, hb, allDotted]
      · simp [List.filter_cons, hb, allDotted]
    | cons q tl' =>
      have hdp : endsDot p := ((allDotted_cons p q tl').mp h).1
      have hdtl : allDotted (q :: tl') := ((allDotted_cons p q tl').mp h).2
      have hbp : nonBlank p = true := endsDot_nonBlank p hdp
      rw [List.filter_cons, if_pos hbp]
      have htl := ih hdtl
      cases hc : (q :: tl').filter nonBlank with
      | nil => exact allDotted_singleton p
      | cons w ws =>
        rw [hc] at htl
        exact (allDotted_cons p w ws).mpr ⟨hdp, htl⟩

/-- C9: with the spec-modelled LSA machinery plugged in, the primary
summarizer is deterministic (two runs on identical input agree) and
stable under re-summarization with the same sentence count, for every
sentence-scoring function, text and count. -/
theorem summarize_text_deterministic_idempotent (score : String → Nat)
    (t : String) (n : Nat) :
    summarize_text (lsaModel score) t n = summarize_text (lsaModel score) t n ∧
    summarize_text (lsaModel score) (summarize_text (lsaModel score) t n) n
      = summarize_text (lsaModel score) t n := by
  refine ⟨rfl, ?_⟩
  by_cases hg : t = "" ∨ pyStrip t = ""
  · have h1 : summarize_text (lsaModel score) t n = "" := by
      unfold summarize_text
      rw [if_pos hg]
    rw [h1]
    simp [summarize_text]
  · push_neg at hg
    set psel := topSelect (fun p => score (String.mk p)) n (sentencesC t.data)
      with hpsel
    have hs : summarize_text (lsaModel score) t n
        = pyJoin " " (psel.map String.mk) := by
      simp [summarize_text, lsaModel, hg.1, hg.2, hpsel]
    have hstepP : ∀ ys, ys ≠ [] →
        (∀ q ∈ ys, noCutFrom none q ∧ nonBlank q = true) →
        (∀ q ∈ removeFirstMin (fun p => score (String.mk p)) ys,
          noCutFrom none q ∧ nonBlank q = true) := by
      intro ys hne hys q hqmem
      obtain ⟨l1, x, l2, heq, hrm⟩ := removeFirstMin_shape _ ys hne
      rw [hrm] at hqmem
      apply hys
      rw [heq]
      rcases List.mem_append.mp hqmem with h1 | h1
      · exact List.mem_append.mpr (Or.inl h1)
      · exact List.mem_append.mpr (Or.inr (List.mem_cons.mpr (Or.inr h1)))
    have hbaseP : ∀ q ∈ sentencesC t.data, noCutFrom none q ∧ nonBlank q = true := by
      intro q hq
      have hmf := List.mem_filter.mp hq
      exact ⟨splitAux_noCut t.data [] trivial q hmf.1, hmf.2⟩
    have hselP : ∀ q ∈ psel, noCutFrom none q ∧ nonBlank q = true := by
      rw [hpsel]
      unfold topSelect
      exact topSelectGo_pres (fun p => score (String.mk p)) n
        (fun xs => ∀ q ∈ xs, noCutFrom none q ∧ nonBlank q = true)
        hstepP (sentencesC t.data).length (sentencesC t.data) hbaseP
    have hstepD : ∀ ys, ys ≠ [] → allDotted ys →
        allDotted (removeFirstMin (fun p => score (String.mk p)) ys) := by
      intro ys hne hys
      obtain ⟨l1, x, l2, heq, hrm⟩ := removeFirstMin_shape _ ys hne
      rw [hrm]
      exact allDotted_remove l1 x l2 (by rw [← heq]; exact hys)
    have hselD : allDotted psel := by
      rw [hpsel]
      unfold topSelect
      exact topSelectGo_pres (fun p => score (String.mk p)) n allDotted
        hstepD (sentencesC t.data).length (sentencesC t.data)
        (allDotted_filter _ (splitAux_allDotted t.data []))
    have hlen : psel.length ≤ n := by
      rw [hpsel]
      unfold topSelect
      exact topSelectGo_length _ n _ _ (le_refl _)
    obtain hps | ⟨p, tl, hps⟩ : psel = [] ∨ ∃ p tl, psel = p :: tl := by
      cases psel with
      | nil => exact Or.inl rfl
      | cons p tl => exact Or.inr ⟨p, tl, rfl⟩
    · rw [hs, hps]
      rw [show pyJoin " " (([] : List (List Char)).map String.mk) = "" from by decide]
      simp [summarize_text]
    · rw [hs]
      have hpmem : p ∈ psel := by
        rw [hps]
        simp
      obtain ⟨c, hcp, hcw⟩ : ∃ c ∈ p, c.isWhitespace = false := by
        have hnb := (hselP p hpmem).2
        unfold nonBlank at hnb
        obtain ⟨c, hc1, hc2⟩ := List.any_eq_true.mp hnb
        exact ⟨c, hc1, by simpa using hc2⟩
      have hcj : c ∈ joinWith [' '] psel := by
        rw [hps]
        exact mem_joinWith_head [' '] p tl c hcp
      have hdata : (pyJoin " " (psel.map String.mk)).data = joinWith [' '] psel :=
        pyJoin_space_data psel
      have hne : pyJoin " " (psel.map String.mk) ≠ "" := by
        intro hcontr
        have hd := congrArg String.data hcontr
        rw [hdata] at hd
        exact List.ne_nil_of_mem hcj (by simpa using hd)
      have hstrip : pyStrip (pyJoin " " (psel.map String.mk)) ≠ "" := by
        rw [pyStrip_ne_empty_iff, hdata]
        exact ⟨c, hcj, hcw⟩
      rw [show summarize_text (lsaModel score) (pyJoin " " (psel.map String.mk)) n
          = pyJoin " " ((topSelect (fun p => score (String.mk p)) n
              (sentencesC (pyJoin " " (psel.map String.mk)).data)).map String.mk) from by
        simp [summarize_text, lsaModel, hne, hstrip]]
      rw [hdata]
      have hround : sentencesC (joinWith [' '] psel) = psel := by
        unfold sentencesC
        rw [split_joinWith psel (by rw [hps]; simp)
          (fun q hq => (hselP q hq).1) hselD]
        exact List.filter_eq_self.mpr (fun q hq => (hselP q hq).2)
      rw [hround]
      rw [show topSelect (fun p => score (String.mk p)) n psel = psel from by
        unfold topSelect
        exact topSelectGo_of_le _ n psel.length psel hlen]

end Cabbage
